import Mathlib

/-!
Verification of the Semeru region-based heap manager against its
natural-language specification.

Shallow embedding of the relevant C++ sources:
  * `SemeruHeapRegion::allocate_impl` / `par_allocate_impl`
    (CPU-Server .../g1/g1CollectionSet.hpp)
  * `HeapRegion::hr_clear`, the `set_*` region type transitions,
    `HeapRegion::move_to_old`, `HeapRegion::flush_data`,
    `HeapRegion::region_to_memory_server_mapping`,
    `HeapRegion::clear` (CPU-Server .../g1/heapRegion.cpp)
  * `G1SemeruBlockOffsetTablePart::alloc_block_work`,
    `set_remainder_to_point_to_start{,_incl}`, `check_all_cards`, `verify`
    (Memory-Server .../g1/g1SemeruBlockOffsetTable.cpp)
  * `G1FullGCCompactTask::G1CompactRegionClosure::apply`,
    `G1FullGCCompactTask::compact_region`,
    `SuspendibleThreadSet::{join,leave,yield,synchronize}`
  * `SemeruHeapRegion::apply_to_marked_objects`, `complete_compaction`
  * `G1SemeruAdjustRegionClosure::do_heap_region`
    (Memory-Server .../g1/g1SemeruSTWCompact.hpp)

Addresses are measured in heap words (`HeapWord*` pointer arithmetic is
word-granular in the source).  Machine-word subtraction on pointers that the
source guarantees to be ordered is modelled by truncated `Nat` subtraction.
-/

namespace Semeru

/-- `pointer_delta(left, right)` on `HeapWord*`: word distance `left - right`.
Callers in the source establish `right <= left`; `Nat` truncation models the
unsigned subtraction. -/
def pointer_delta (left right : Nat) : Nat := left - right

/-! ## Region bump-pointer allocation (`SemeruHeapRegion`, g1CollectionSet.hpp) -/

/-- The allocation-relevant state of a `SemeruHeapRegion`: the `_bottom`,
`_top` (bump pointer) and `_end` word addresses inherited from
`G1SemeruContiguousSpace`. -/
structure RegionSpace where
  bottom : Nat
  top : Nat
  ends : Nat
  deriving Repr, DecidableEq

/-- `SemeruHeapRegion::allocate_impl(min_word_size, desired_word_size,
actual_size)`: single-threaded bump-pointer allocation.  Returns
`(some (obj, actual_size), st')` on success (mirroring the returned pointer
and the out-parameter) and `(none, st)` for the NULL result. -/
def allocate_impl (st : RegionSpace) (min_word_size desired_word_size : Nat) :
    Option (Nat × Nat) × RegionSpace :=
  let obj := st.top
  let available := pointer_delta st.ends obj
  let want_to_allocate := min available desired_word_size
  if min_word_size ≤ want_to_allocate then
    let new_top := obj + want_to_allocate
    (some (obj, want_to_allocate), { st with top := new_top })
  else
    (none, st)

/-- `Atomic::cmpxchg(new_val, top_addr(), cmp)` on the region `_top` field:
returns the value read at `_top` and the (possibly updated) region state. -/
def cmpxchg (st : RegionSpace) (new_val cmp : Nat) : Nat × RegionSpace :=
  if st.top = cmp then (cmp, { st with top := new_val }) else (st.top, st)

/-- `SemeruHeapRegion::par_allocate_impl(min_word_size, desired_word_size,
actual_size)`: the compare-and-swap retry loop.  The `do ... while (true)`
loop is given explicit fuel; in this sequential embedding no other thread
mutates `_top` between the read and the `cmpxchg`, so the first iteration
decides (proved below). -/
def par_allocate_impl :
    Nat → RegionSpace → Nat → Nat → Option (Nat × Nat) × RegionSpace
  | 0, st, _, _ => (none, st)
  | fuel + 1, st, min_word_size, desired_word_size =>
    let obj := st.top
    let available := pointer_delta st.ends obj
    let want_to_allocate := min available desired_word_size
    if min_word_size ≤ want_to_allocate then
      let new_top := obj + want_to_allocate
      let res := cmpxchg st new_top obj
      if res.1 = obj then
        (some (obj, want_to_allocate), res.2)
      else
        par_allocate_impl fuel res.2 min_word_size desired_word_size
    else
      (none, st)

/-! ## CPU-server `HeapRegion`: type transitions, clearing, flushing
    (heapRegion.cpp) -/

/-- `HeapRegionType` tags (heapRegionType.hpp collaborator). -/
inductive RegionType where
  | Free
  | Eden
  | Survivor
  | Old
  | StartsHumongous
  | ContinuesHumongous
  | OpenArchive
  | ClosedArchive
  deriving Repr, DecidableEq

/-- `HeapRegionType::is_humongous`. -/
def RegionType.is_humongous : RegionType → Bool
  | .StartsHumongous => true
  | .ContinuesHumongous => true
  | _ => false

/-- Observable actions of a `HeapRegion` operation, in execution order:
`trace t` is the `report_region_type_change` call to the tracer collaborator
(the event carries the destination type), `mutate t` is the write to the
region's type tag (`_cpu_to_mem_gc->_type`). -/
inductive RAction where
  | trace (t : RegionType)
  | mutate (t : RegionType)
  deriving Repr, DecidableEq

/-- The per-claim-relevant state of a CPU-server `HeapRegion`.  Addresses in
words.  `humongous_start` models `_cpu_to_mem_gc->_humongous_start_region`
(`none` = NULL), `rem_set` the remembered-set content, `pre_dummy_top` the
`G1ContiguousSpace` pre-dummy-top (`none` after reset), `surv_rate_group`
the installed surv-rate group, `bot_object_can_span` the BOT part flag. -/
structure HRegion where
  hrm_index : Nat
  bottom : Nat
  top : Nat
  ends : Nat
  rtype : RegionType
  humongous_start : Option Nat
  prev_top_at_mark_start : Nat
  next_top_at_mark_start : Nat
  prev_marked_bytes : Nat
  next_marked_bytes : Nat
  rem_set : List Nat
  pre_dummy_top : Option Nat
  young_index_in_cset : Int
  surv_rate_group : Option Nat
  bot_object_can_span : Bool
  deriving Repr, DecidableEq

/-- `HeapRegion::set_free`: report to the tracer, then mutate the tag. -/
def HRegion.set_free (r : HRegion) : HRegion × List RAction :=
  ({ r with rtype := .Free }, [.trace .Free, .mutate .Free])

/-- `HeapRegion::set_eden`. -/
def HRegion.set_eden (r : HRegion) : HRegion × List RAction :=
  ({ r with rtype := .Eden }, [.trace .Eden, .mutate .Eden])

/-- `HeapRegion::set_survivor`. -/
def HRegion.set_survivor (r : HRegion) : HRegion × List RAction :=
  ({ r with rtype := .Survivor }, [.trace .Survivor, .mutate .Survivor])

/-- `HeapRegion::set_old`. -/
def HRegion.set_old (r : HRegion) : HRegion × List RAction :=
  ({ r with rtype := .Old }, [.trace .Old, .mutate .Old])

/-- `HeapRegion::set_open_archive`. -/
def HRegion.set_open_archive (r : HRegion) : HRegion × List RAction :=
  ({ r with rtype := .OpenArchive }, [.trace .OpenArchive, .mutate .OpenArchive])

/-- `HeapRegion::set_closed_archive`. -/
def HRegion.set_closed_archive (r : HRegion) : HRegion × List RAction :=
  ({ r with rtype := .ClosedArchive },
   [.trace .ClosedArchive, .mutate .ClosedArchive])

/-- Modelled from the spec: `HeapRegionType::relabel_as_old` (heapRegionType
collaborator, not under src/) — relabels an Eden/Survivor region as Old and
reports whether the tag actually changed; an already-Old region is left
unchanged and reports `false`. -/
def RegionType.relabel_as_old : RegionType → RegionType × Bool
  | .Eden => (.Old, true)
  | .Survivor => (.Old, true)
  | t => (t, false)

/-- `HeapRegion::move_to_old`: performs the relabel first and reports to the
tracer only if the tag changed (`if (_type.relabel_as_old()) { report ... }`). -/
def HRegion.move_to_old (r : HRegion) : HRegion × List RAction :=
  let rel := r.rtype.relabel_as_old
  if rel.2 then
    ({ r with rtype := rel.1 }, [.mutate rel.1, .trace .Old])
  else
    ({ r with rtype := rel.1 }, [])

/-- `HeapRegion::set_starts_humongous(obj_top, fill_size)`: asserts
non-humongous and `top() == bottom()` (fatal, modelled as `none`), reports,
mutates the tag, installs itself as humongous start.  The BOT rewrite
(`set_for_starts_humongous`) is bookkeeping outside this structure. -/
def HRegion.set_starts_humongous (r : HRegion) : Option (HRegion × List RAction) :=
  if r.rtype.is_humongous then none
  else if r.top ≠ r.bottom then none
  else some ({ r with rtype := .StartsHumongous, humongous_start := some r.hrm_index },
             [.trace .StartsHumongous, .mutate .StartsHumongous])

/-- `HeapRegion::set_continues_humongous(first_hr)`: asserts non-humongous,
emptiness and that `first_hr` starts a humongous object; reports, mutates,
records the backpointer and marks the BOT part `object_can_span`. -/
def HRegion.set_continues_humongous (r : HRegion) (first_hr : HRegion) :
    Option (HRegion × List RAction) :=
  if r.rtype.is_humongous then none
  else if r.top ≠ r.bottom then none
  else if first_hr.rtype ≠ .StartsHumongous then none
  else some ({ r with rtype := .ContinuesHumongous,
                      humongous_start := some first_hr.hrm_index,
                      bot_object_can_span := true },
             [.trace .ContinuesHumongous, .mutate .ContinuesHumongous])

/-- Modelled from the spec: `HeapRegion::zero_marked_bytes` (declared in the
heapRegion header, not under src/) — zeroes both liveness byte counters. -/
def HRegion.zero_marked_bytes (r : HRegion) : HRegion :=
  { r with prev_marked_bytes := 0, next_marked_bytes := 0 }

/-- Modelled from the spec: `HeapRegion::init_top_at_mark_start` (declared in
the heapRegion header, not under src/) — resets both TAMS snapshots to
`bottom`. -/
def HRegion.init_top_at_mark_start (r : HRegion) : HRegion :=
  { r with prev_top_at_mark_start := r.bottom,
           next_top_at_mark_start := r.bottom }

/-- `HeapRegion::clear(mangle_space)` (heapRegion.cpp:964): `set_top(bottom())`
followed by `CompactibleSpace::clear` and `reset_bot` (BOT cursor reset is
bookkeeping outside this structure; mangling is debug-only). -/
def HRegion.clear (r : HRegion) : HRegion :=
  { r with top := r.bottom }

/-- `HeapRegion::hr_clear(keep_remset, clear_space, locked)`.  `in_cset`
models `in_collection_set()` (a query on the collection-set collaborator);
the two leading asserts (humongous regions already filtered out, region not
in the collection set) are fatal precondition violations, modelled as `none`.
`rem_set()->clear_locked()` and `rem_set()->clear()` both empty the
remembered set. -/
def HRegion.hr_clear (r : HRegion) (in_cset : Bool)
    (keep_remset clear_space _locked : Bool) : Option HRegion :=
  if r.humongous_start ≠ none then none
  else if in_cset then none
  else
    let r1 := { r with young_index_in_cset := -1, surv_rate_group := none }
    let r2 := (r1.set_free).1
    let r3 := { r2 with pre_dummy_top := none }
    let r4 := if keep_remset then r3 else { r3 with rem_set := [] }
    let r5 := r4.zero_marked_bytes
    let r6 := r5.init_top_at_mark_start
    some (if clear_space then r6.clear else r6)

/-! ## Cross-machine transfer (`flush_data`, heapRegion.cpp) -/

/-- `HeapRegion::region_to_memory_server_mapping()`: server 0 exactly when the
region's `end()` lies below the first memory-server window boundary
(`MEMORY_SERVER_1_START_ADDR`, a configuration constant passed here as
`boundary`), server 1 otherwise. -/
def region_to_memory_server_mapping (boundary : Nat) (r : HRegion) : Nat :=
  if r.ends < boundary then 0 else 1

/-- One RDMA write as handed to the transport collaborator:
`syscall(RDMA_WRITE, target_mem_id, addr, byte_length)`. -/
structure RdmaWrite where
  target_mem_id : Nat
  addr : Nat
  byte_length : Nat
  deriving Repr, DecidableEq

/-- `HeapRegion::flush_data()`: issues one RDMA write of `GrainBytes` raw
bytes starting at `bottom()` to the mapped memory server; a nonzero transport
status hits `guarantee(false, ...)` (fatal, modelled as `none`), a zero status
returns normally with the region untouched.  `status` is the transport
collaborator's return value for this write. -/
def HRegion.flush_data (r : HRegion) (grainBytes boundary : Nat) (status : Int) :
    RdmaWrite × Option HRegion :=
  let target_mem_id := region_to_memory_server_mapping boundary r
  let w : RdmaWrite := ⟨target_mem_id, r.bottom, grainBytes⟩
  if status ≠ 0 then (w, none) else (w, some r)

/-! ## `SuspendibleThreadSet` (suspendibleThreadSet.cpp)

Every operation of the set runs under `STS_lock`, so each is one atomic step.
During a `synchronize()` window (`_suspend_all == true`, not yet
synchronized) the only steps a set member can take are `leave()` and the
stopping half of `yield()` (`join()` blocks while `_suspend_all` is set, and
a stopped thread blocks inside `yield()` until `desynchronize()`).  The state
tracks `running` = joined-and-not-stopped threads (so `_nthreads = running +
stopped`), `stopped` = `_nthreads_stopped`, and `sem` = the
`_synchronize_wakeup` semaphore count. -/

/-- State of the suspendible thread set during a suspend request. -/
structure STSState where
  running : Nat
  stopped : Nat
  sem : Nat
  deriving Repr, DecidableEq

/-- `SuspendibleThreadSet::is_synchronized()`: `_nthreads_stopped == _nthreads`. -/
def STSState.is_synchronized (s : STSState) : Bool :=
  s.stopped = s.running + s.stopped

/-- A step a set member can take while `_suspend_all` is set. -/
inductive STSOp where
  | leave
  | yieldStop
  deriving Repr, DecidableEq

/-- One lock-atomic step during the suspend window.  `leave` decrements
`_nthreads` and signals the semaphore if that completes the request;
`yieldStop` increments `_nthreads_stopped` and signals if that completes the
request (after which the thread blocks on the monitor).  A step needs a
running thread to take it (`none` otherwise). -/
def stsStep (s : STSState) : STSOp → Option STSState
  | .leave =>
    if s.running = 0 then none
    else
      let s' : STSState := { s with running := s.running - 1 }
      some (if s'.is_synchronized then { s' with sem := s'.sem + 1 } else s')
  | .yieldStop =>
    if s.running = 0 then none
    else
      let s' : STSState := { s with running := s.running - 1,
                                    stopped := s.stopped + 1 }
      some (if s'.is_synchronized then { s' with sem := s'.sem + 1 } else s')

/-- Run a sequence of member steps during the suspend window. -/
def stsRun (s : STSState) : List STSOp → Option STSState
  | [] => some s
  | op :: ops => (stsStep s op).bind (fun s' => stsRun s' ops)

/-- `SuspendibleThreadSet::synchronize()` up to its decision point: sets
`_suspend_all` and returns immediately when already synchronized, otherwise
releases the lock and waits on the semaphore.  `true` = must wait. -/
def synchronizeMustWait (s : STSState) : Bool := !s.is_synchronized

/-! ## Memory-server compaction pipeline (G1FullGCCompactTask,
    apply_to_marked_objects, G1SemeruAdjustRegionClosure) -/

/-- A live (marked) heap object as the compaction pipeline sees it: its
current word address, its word size, the forwarding value held in its mark
word (`none` = no forwarding installed), and its reference fields (word
addresses its oop fields point at). -/
structure LiveObj where
  addr : Nat
  size : Nat
  forwardee : Option Nat
  fields : List Nat
  deriving Repr, DecidableEq

/-- A heap write performed by the copy closure, for frame reasoning:
`copyWords src dst len` is `Copy::aligned_conjoint_words`, `initMark a` is
`oop(a)->init_mark_raw()`. -/
inductive HeapWrite where
  | copyWords (src dst len : Nat)
  | initMark (a : Nat)
  deriving Repr, DecidableEq

/-- `G1FullGCCompactTask::G1CompactRegionClosure::apply(oop obj)`: reads the
size and the forwardee; with no forwarding installed the object is not
moving and the closure only returns the size.  Otherwise it asserts the
object is actually moving (`obj_addr != destination`, fatal when violated:
`none`), copies `size` words and reinitializes the copy's mark word.
Returns the writes performed and the value `apply` returns. -/
def compactApply (obj : LiveObj) : Option (List HeapWrite × Nat) :=
  let size := obj.size
  match obj.forwardee with
  | none => some ([], size)
  | some destination =>
    if obj.addr = destination then none
    else some ([.copyWords obj.addr destination size, .initMark destination], size)

/-- The object list after the copy closure ran over one marked object:
an unforwarded object stays in place, a forwarded one now lives at its
destination with a freshly initialized mark word (no forwarding). -/
def compactMove (obj : LiveObj) : LiveObj :=
  match obj.forwardee with
  | none => obj
  | some destination => { obj with addr := destination, forwardee := none }

/-- `SemeruHeapRegion::apply_to_marked_objects` with the compact closure,
over the region's marked-object list in address order (the bitmap walk from
`bottom()` to `scan_limit()` visits exactly the marked objects in address
order): each marked object is applied in turn.  Fatal closure outcomes
propagate. -/
def applyCompactToMarked : List LiveObj → Option (List LiveObj)
  | [] => some []
  | obj :: rest =>
    (compactApply obj).bind fun _ =>
      (applyCompactToMarked rest).map fun rest' => compactMove obj :: rest'

/-- Modelled from the spec: phase 1 (`calculate/prepare`, G1FullGCPrepareTask
collaborator, not under src/) — for each live object in address order,
assign a destination by advancing a compaction cursor starting at `bottom`;
the destination is installed in the object's header as a forwarding value
exactly when the object moves (destination differs from its address). -/
def prepareForward (cursor : Nat) : List LiveObj → List LiveObj
  | [] => []
  | obj :: rest =>
    let dest := cursor
    let obj' := { obj with forwardee := if dest = obj.addr then none else some dest }
    obj' :: prepareForward (cursor + obj.size) rest

/-- The compaction cursor's final position: `bottom` plus all live sizes. -/
def cursorEnd (cursor : Nat) : List LiveObj → Nat
  | [] => cursor
  | obj :: rest => cursorEnd (cursor + obj.size) rest

/-- A memory-server region under compaction: bounds, region type and
marked-object list in address order (the concurrent-mark bitmap restricted
to the region). -/
structure CRegion where
  bottom : Nat
  top : Nat
  rtype : RegionType
  marked : List LiveObj
  deriving Repr, DecidableEq

/-- Marked objects are disjoint, in address order, inside `[bottom, top)`,
with nonzero sizes — what the bitmap walk of `apply_to_marked_objects`
guarantees for the objects it visits. -/
def ObjsWithin : Nat → Nat → List LiveObj → Prop
  | _, _, [] => True
  | lo, hi, obj :: rest =>
    lo ≤ obj.addr ∧ 0 < obj.size ∧ obj.addr + obj.size ≤ hi ∧
      ObjsWithin (obj.addr + obj.size) hi rest

/-- `G1FullGCCompactTask::compact_region(hr)` composed with the
spec-modelled phase 1: forward all marked objects from a cursor at `bottom`,
copy them (`apply_to_marked_objects` + compact closure), clear the region's
mark bitmap, and let `complete_compaction()` install the compaction cursor's
end as the new `top` (`reset_after_compaction`).  Humongous regions are a
fatal assert. -/
def compact_region (r : CRegion) : Option CRegion :=
  if r.rtype.is_humongous then none
  else
    let fwd := prepareForward r.bottom r.marked
    (applyCompactToMarked fwd).map fun moved =>
      { r with marked := moved, top := cursorEnd r.bottom fwd }

/-! ## Adjust phase (`G1SemeruAdjustRegionClosure::do_heap_region`,
    g1SemeruSTWCompact.hpp) -/

/-- A region as the adjust phase sees it: bounds and alignment, type, the
region's live objects (content), and the mark bitmap restricted to the
region (addresses with a set mark bit). -/
structure AdjRegion where
  bottom : Nat
  grain : Nat
  top : Nat
  rtype : RegionType
  objs : List LiveObj
  markedAddrs : List Nat
  deriving Repr, DecidableEq

/-- Modelled from the spec: `G1SemeruAdjustClosure::adjust_intra_region_pointer`
(inline implementation not under src/) — a reference field whose target lies
within the current region (base-alignment comparison) is rewritten
immediately to the target's forwarding address; a field targeting a
different region is left unchanged and recorded into the cross-region
reference queue for deferred fix-up.  `fwd` is the forwarding map computed
by phase 1 (identity on non-moving objects). -/
def adjustField (fwd : Nat → Nat) (bottom grain p : Nat) : Nat × List Nat :=
  if bottom ≤ p ∧ p < bottom + grain then (fwd p, []) else (p, [p])

/-- `G1SemeruAdjustLiveClosure::apply` / `oop_iterate` over one object's
fields: rewrite intra-region targets, collect cross-region records.  The
object itself is not moved (its address and size are untouched). -/
def adjustObj (fwd : Nat → Nat) (bottom grain : Nat) (obj : LiveObj) :
    LiveObj × List Nat :=
  let adjusted := obj.fields.map (fun p => (adjustField fwd bottom grain p).1)
  let queue := obj.fields.foldr (fun p acc => (adjustField fwd bottom grain p).2 ++ acc) []
  ({ obj with fields := adjusted }, queue)

/-- Adjust exactly the objects whose address carries a mark bit
(`apply_to_marked_objects` with the adjust closure); unmarked objects are
not visited. -/
def adjustMarked (fwd : Nat → Nat) (bottom grain : Nat) (markedAddrs : List Nat) :
    List LiveObj → List LiveObj × List Nat
  | [] => ([], [])
  | obj :: rest =>
    let (rest', q) := adjustMarked fwd bottom grain markedAddrs rest
    if obj.addr ∈ markedAddrs then
      let (obj', q0) := adjustObj fwd bottom grain obj
      (obj' :: rest', q0 ++ q)
    else
      (obj :: rest', q)

/-- `G1SemeruAdjustRegionClosure::do_heap_region(r)`: a humongous region has
its (single) humongous object's fields walked; an open-archive region has
its marked objects adjusted and its mark bitmap cleared; every other region
(the final `else`, which includes closed-archive regions) has its marked
objects adjusted with the bitmap left alone. -/
def do_heap_region (fwd : Nat → Nat) (r : AdjRegion) : AdjRegion × List Nat :=
  if r.rtype.is_humongous then
    let (objs', q) := adjustMarked fwd r.bottom r.grain (r.objs.map LiveObj.addr) r.objs
    ({ r with objs := objs' }, q)
  else if r.rtype = .OpenArchive then
    let (objs', q) := adjustMarked fwd r.bottom r.grain r.markedAddrs r.objs
    ({ r with objs := objs', markedAddrs := [] }, q)
  else
    let (objs', q) := adjustMarked fwd r.bottom r.grain r.markedAddrs r.objs
    ({ r with objs := objs' }, q)

/-- Modelled from the spec: the prepare phase's compaction-queue policy
(G1FullGCPrepareTask collaborator, not under src/) — only ordinary
non-humongous, non-archive regions are added to a worker's compaction
queue; archive regions are never physically compacted. -/
def compactionQueueEligible (t : RegionType) : Bool :=
  !t.is_humongous && t ≠ RegionType.OpenArchive && t ≠ RegionType.ClosedArchive

/-! ## Block offset table (g1SemeruBlockOffsetTable.cpp)

The region is modelled with `bottom = 0` and all addresses in heap words;
`index_for`/`address_for_index` are then plain division/multiplication by
the card size in words.  Card entries are the `u_char` offset array (all
values the algorithm stores fit a byte). -/

namespace BOT

/-- `BOTConstants` (gc/shared/blockOffsetTable.hpp collaborator, not under
src/; values fixed by the encoding comment in
g1SemeruBlockOffsetTable.cpp): 512-byte cards of 64 words, backskip base 8,
14 logarithmic buckets. -/
def N_words : Nat := 64

/-- `BOTConstants::N_powers`. -/
def N_powers : Nat := 14

/-- `BOTConstants::power_to_cards_back(i) = 1 << (LogBase * i) = 8^i`. -/
def power_to_cards_back (i : Nat) : Nat := 8 ^ i

/-- `BOTConstants::entry_to_cards_back(entry) = power_to_cards_back(entry -
N_words)` (callers establish `entry >= N_words`). -/
def entry_to_cards_back (entry : Nat) : Nat := power_to_cards_back (entry - N_words)

/-- `G1SemeruBlockOffsetTable::index_for(addr)` with the reserved base at 0. -/
def index_for (addr : Nat) : Nat := addr / N_words

/-- `G1SemeruBlockOffsetTable::address_for_index(i)`. -/
def address_for_index (i : Nat) : Nat := i * N_words

/-- The offset array: one entry per card. -/
def CardMap := Nat → Nat

/-- `set_offset_array(index, u_char offset)`: write one entry. -/
def setOffsetCard (m : CardMap) (i v : Nat) : CardMap :=
  fun c => if c = i then v else m c

/-- `set_offset_array(left, right, offset)`: fill the closed card interval. -/
def setOffsetRange (m : CardMap) (left right v : Nat) : CardMap :=
  fun c => if left ≤ c ∧ c ≤ right then v else m c

/-- A `G1SemeruBlockOffsetTablePart`: its window of the offset array plus the
`(_next_offset_threshold, _next_offset_index)` allocation cursor. -/
structure BotPart where
  offsets : CardMap
  threshold : Nat
  index : Nat

/-- The loop of `set_remainder_to_point_to_start_incl`
(`for (uint i = 0; i < BOTConstants::N_powers; i++)`): `sc`/`ec` are
`start_card`/`end_card`, `cur` is `start_card_for_region`, `i` the loop
counter and `fuel` the remaining iterations (`N_powers - i`). -/
def setRemainderAux (sc ec : Nat) : Nat → CardMap → Nat → Nat → CardMap
  | 0, off, _, _ => off
  | fuel + 1, off, cur, i =>
    let reach := sc - 1 + (power_to_cards_back (i + 1) - 1)
    let offset := N_words + i
    if ec ≤ reach then
      setOffsetRange off cur ec offset
    else
      setRemainderAux sc ec fuel (setOffsetRange off cur reach offset) (reach + 1) (i + 1)

/-- `G1SemeruBlockOffsetTablePart::set_remainder_to_point_to_start_incl
(start_card, end_card)` (closed interval). -/
def set_remainder_to_point_to_start_incl (off : CardMap) (start_card end_card : Nat) :
    CardMap :=
  if end_card < start_card then off
  else setRemainderAux start_card end_card N_powers off start_card 0

/-- `G1SemeruBlockOffsetTablePart::set_remainder_to_point_to_start(start, end)`
(right-open address interval). -/
def set_remainder_to_point_to_start (off : CardMap) (start ends : Nat) : CardMap :=
  if ends ≤ start then off
  else set_remainder_to_point_to_start_incl off (index_for start) (index_for (ends - 1))

/-- `G1SemeruBlockOffsetTablePart::alloc_block_work(&threshold, &index,
blk_start, blk_end)`: stamp the card holding the block-start offset, stamp
the remaining covered cards with logarithmic backskips, advance the cursor
past the block's last card. -/
def alloc_block_work (st : BotPart) (blk_start blk_end : Nat) : BotPart :=
  let threshold := st.threshold
  let index := st.index
  let off1 := setOffsetCard st.offsets index (pointer_delta threshold blk_start)
  let end_index := index_for (blk_end - 1)
  let off2 :=
    if index + 1 ≤ end_index then
      set_remainder_to_point_to_start off1 (address_for_index (index + 1))
        (address_for_index end_index + N_words)
    else off1
  { offsets := off2,
    index := end_index + 1,
    threshold := address_for_index end_index + N_words }

/-- `G1SemeruBlockOffsetTablePart::alloc_block(blk_start, blk_end)` (inline
wrapper, g1SemeruBlockOffsetTable.inline.hpp collaborator; modelled from the
spec's incremental-stamping description): only a block crossing the current
threshold updates the table. -/
def alloc_block (st : BotPart) (blk_start blk_end : Nat) : BotPart :=
  if st.threshold < blk_end then alloc_block_work st blk_start blk_end else st

/-- The freshly initialized part (`zero_bottom_entry_raw` +
`initialize_threshold_raw` with `bottom = 0`): card 0 holds offset 0 and the
cursor sits at the second card.  Entries are never read before being
written; unwritten entries are represented as 0. -/
def initBot : BotPart :=
  { offsets := fun _ => 0, threshold := N_words, index := 1 }

/-- Run a sequence of `alloc_block` calls. -/
def runAllocs (st : BotPart) (blocks : List (Nat × Nat)) : BotPart :=
  blocks.foldl (fun s b => alloc_block s b.1 b.2) st

/-- Modelled from the spec: the backward-decode half of `block_start`
(`block_at_or_preceding`, g1SemeruBlockOffsetTable.inline.hpp collaborator;
the algorithm is spelled out in the encoding comment of
`set_remainder_to_point_to_start`): read the card's entry; a direct offset
(`< N_words`) points straight back to a block boundary, a logarithmic entry
backskips `entry_to_cards_back` cards and repeats.  `none` models walking
out of the covered region (never happens on valid tables). -/
def decodeCard (off : CardMap) : Nat → Nat → Option Nat
  | 0, _ => none
  | fuel + 1, c =>
    let entry := off c
    if entry < N_words then some (address_for_index c - entry)
    else
      let back := entry_to_cards_back entry
      if back ≤ c then decodeCard off fuel (c - back) else none

/-- `block_at_or_preceding(addr)`: decode starting at `addr`'s card; the
chain strictly descends, so `card + 1` steps always suffice. -/
def block_at_or_preceding (off : CardMap) (addr : Nat) : Option Nat :=
  decodeCard off (index_for addr + 1) (index_for addr)

/-- Modelled from the spec: the forward half of `block_start`
(`forward_to_block_containing_addr`, inline collaborator) — "walking forward
from the nearest known boundary": starting from the decoded boundary `q`,
read the size of the block starting at `q` and step block by block until the
block containing `addr` is found.  Reading a word that is not a recorded
block start is undefined in the source (garbage object header) and is
modelled as `none`. -/
def forwardWalk (blocks : List (Nat × Nat)) : Nat → Nat → Nat → Option Nat
  | 0, _, _ => none
  | fuel + 1, q, addr =>
    match blocks.find? (fun b => b.1 = q) with
    | none => none
    | some (s, e) => if addr < e then some s else forwardWalk blocks fuel e addr

/-- `block_start(addr)`: backward decode then forward walk.  `blocks` is the
heap content (the recorded blocks, in address order). -/
def block_start (blocks : List (Nat × Nat)) (off : CardMap) (addr : Nat) :
    Option Nat :=
  match block_at_or_preceding off addr with
  | none => none
  | some q => forwardWalk blocks (blocks.length + 1) q addr

/-- A valid call sequence for `alloc_block` starting from allocation top
`top`: each block is nonempty, starts at or after the previous end
(monotonically increasing, non-overlapping), starts at or before the current
threshold (the stamping precondition `blk_start <= threshold` asserted by
`alloc_block_work`), and ends inside one region (the region-size bound keeps
`set_remainder`'s 14 logarithmic buckets sufficient; `2^26` words = 512MB,
the Semeru grain size). -/
def ValidFrom : Nat → List (Nat × Nat) → Prop
  | _, [] => True
  | top, (s, e) :: rest =>
    top ≤ s ∧ s < e ∧ s ≤ N_words * max 1 ((top + N_words - 1) / N_words) ∧
      e ≤ 2 ^ 26 ∧ ValidFrom e rest

/-- A contiguous call sequence from allocation top `top`: each block begins
exactly where the previous ended (how a region actually allocates: bump
pointer from `bottom`, fillers for gaps). -/
def Contig : Nat → List (Nat × Nat) → Prop
  | _, [] => True
  | top, (s, e) :: rest => s = top ∧ s < e ∧ e ≤ 2 ^ 26 ∧ Contig e rest

/-- The allocation top after a block sequence. -/
def lastTop (top : Nat) : List (Nat × Nat) → Nat
  | [] => top
  | b :: rest => lastTop b.2 rest

/-- The first unstamped card for allocation top `top`: cards `1` to
`stampLimit top - 1` have been stamped, the cursor sits at card
`stampLimit top` (`= max 1 ⌈top / N_words⌉`, card 0 always holds offset 0). -/
def stampLimit (top : Nat) : Nat := max 1 ((top + (N_words - 1)) / N_words)

/-- The running invariant of a BOT part fed by a valid `alloc_block`
sequence: the cursor matches the allocation top; card 0 keeps offset 0;
cards at or beyond the cursor are unwritten; every stamped card's backward
decode lands on the recorded block covering that card's base address; and
logarithmic entries make strictly descending, monotone backskips. -/
structure GoodState (st : BotPart) (top : Nat) (blocks : List (Nat × Nat)) : Prop where
  thr_eq : st.threshold = N_words * stampLimit top
  idx_eq : st.index = stampLimit top
  card0 : st.offsets 0 = 0
  zero_beyond : ∀ c, stampLimit top ≤ c → st.offsets c = 0
  decode_ok : ∀ c, 1 ≤ c → c < stampLimit top →
    ∃ s e, (s, e) ∈ blocks ∧ s ≤ N_words * c ∧ N_words * c < e ∧
      decodeCard st.offsets (c + 1) c = some s
  mono : ∀ c, N_words < st.offsets c →
    entry_to_cards_back (st.offsets c) ≤ c ∧
    st.offsets (c - entry_to_cards_back (st.offsets c)) ≤ st.offsets c

instance : ∀ t bs, Decidable (ValidFrom t bs) := by
  intro t bs
  induction bs generalizing t with
  | nil => exact isTrue trivial
  | cons b rest ih =>
    have := ih b.2
    unfold ValidFrom
    exact inferInstance

instance : ∀ t bs, Decidable (Contig t bs) := by
  intro t bs
  induction bs generalizing t with
  | nil => exact isTrue trivial
  | cons b rest ih =>
    have := ih b.2
    unfold Contig
    exact inferInstance

end BOT

/-- A concrete CPU-server region used to instantiate theorems: nonzero
metadata so that clearing effects are observable. -/
def sampleRegion (t : RegionType) (top : Nat) : HRegion :=
  { hrm_index := 0, bottom := 0, top := top, ends := 4096, rtype := t,
    humongous_start := none, prev_top_at_mark_start := 0,
    next_top_at_mark_start := 0, prev_marked_bytes := 7,
    next_marked_bytes := 9, rem_set := [3], pre_dummy_top := none,
    young_index_in_cset := 2, surv_rate_group := some 1,
    bot_object_can_span := false }

/-!
# Theorems
-/

/-- One iteration of the `par_allocate_impl` retry loop decides when no other
thread touches `_top` between the read and the compare-and-swap: the CAS
compares the freshly read `_top` against itself and succeeds. -/
theorem par_allocate_impl_eq (fuel : Nat) (st : RegionSpace)
    (min_word_size desired_word_size : Nat) :
    par_allocate_impl (fuel + 1) st min_word_size desired_word_size =
      allocate_impl st min_word_size desired_word_size := by
  simp [par_allocate_impl, allocate_impl, cmpxchg]

/-- C3: for every region with `bottom <= top <= end` and every request with
`minSize <= desiredSize`, both `allocate_impl` and the CAS retry loop
`par_allocate_impl` fail (NULL) with the region unchanged exactly when
`end - top < minSize`; otherwise both return the old `top`, advance `top` by
`min(end - top, desiredSize)` and report that amount as `actual_size`, with
`minSize <= actual_size <= desiredSize`. -/
theorem allocate_contract (st : RegionSpace) (min_word_size desired_word_size : Nat)
    (_hbt : st.bottom ≤ st.top) (_hte : st.top ≤ st.ends)
    (hmd : min_word_size ≤ desired_word_size) :
    (st.ends - st.top < min_word_size →
      allocate_impl st min_word_size desired_word_size = (none, st) ∧
      ∀ fuel, par_allocate_impl (fuel + 1) st min_word_size desired_word_size
        = (none, st)) ∧
    (min_word_size ≤ st.ends - st.top →
      min_word_size ≤ min (st.ends - st.top) desired_word_size ∧
      min (st.ends - st.top) desired_word_size ≤ desired_word_size ∧
      allocate_impl st min_word_size desired_word_size =
        (some (st.top, min (st.ends - st.top) desired_word_size),
         { st with top := st.top + min (st.ends - st.top) desired_word_size }) ∧
      ∀ fuel, par_allocate_impl (fuel + 1) st min_word_size desired_word_size =
        (some (st.top, min (st.ends - st.top) desired_word_size),
         { st with top := st.top + min (st.ends - st.top) desired_word_size })) := by
  constructor
  · intro hlt
    have hwant : ¬ min_word_size ≤ min (st.ends - st.top) desired_word_size := by
      intro hle
      exact absurd (le_trans hle (min_le_left _ _)) (not_le_of_lt hlt)
    constructor
    · simp only [allocate_impl, pointer_delta]
      rw [if_neg hwant]
    · intro fuel
      rw [par_allocate_impl_eq]
      simp only [allocate_impl, pointer_delta]
      rw [if_neg hwant]
  · intro hge
    have hwant : min_word_size ≤ min (st.ends - st.top) desired_word_size :=
      le_min hge hmd
    refine ⟨hwant, min_le_right _ _, ?_, ?_⟩
    · simp only [allocate_impl, pointer_delta]
      rw [if_pos hwant]
    · intro fuel
      rw [par_allocate_impl_eq]
      simp only [allocate_impl, pointer_delta]
      rw [if_pos hwant]

/-- Witness for `allocate_contract`: a region `[0, 10, 64)` with request
`(4, 8)`: success path gives the old top and 8 words; request `(60, 60)`
fails with the region untouched. -/
theorem allocate_contract_witness :
    (0 : Nat) ≤ 10 ∧ (10 : Nat) ≤ 64 ∧ (4 : Nat) ≤ 8 ∧
    allocate_impl ⟨0, 10, 64⟩ 4 8 = (some (10, 8), ⟨0, 18, 64⟩) ∧
    allocate_impl ⟨0, 10, 64⟩ 60 60 = (none, ⟨0, 10, 64⟩) := by
  refine ⟨by decide, by decide, by decide, ?_, ?_⟩
  · have h := (allocate_contract ⟨0, 10, 64⟩ 4 8 (by decide) (by decide)
      (by decide)).2 (by decide)
    simpa using h.2.2.1
  · have h := (allocate_contract ⟨0, 10, 64⟩ 60 60 (by decide) (by decide)
      (by decide)).1 (by decide)
    simpa using h.1

/-- C8: `flush_data` issues exactly one RDMA write of `grainBytes` raw bytes
starting at `bottom` to the server picked by the static address-window
mapping (server 0 exactly when the region's `end` lies below the first
memory-server window boundary, server 1 otherwise); a nonzero transport
status is a fatal abort, a zero status returns normally with the region
unmodified. -/
theorem flush_data_contract (r : HRegion) (grainBytes boundary : Nat) (status : Int) :
    (r.flush_data grainBytes boundary status).1 =
      ⟨if r.ends < boundary then 0 else 1, r.bottom, grainBytes⟩ ∧
    (status ≠ 0 → (r.flush_data grainBytes boundary status).2 = none) ∧
    (status = 0 → (r.flush_data grainBytes boundary status).2 = some r) := by
  refine ⟨?_, ?_, ?_⟩
  · by_cases h : status = 0 <;>
      simp [HRegion.flush_data, region_to_memory_server_mapping, h]
  · intro h
    simp [HRegion.flush_data, h]
  · intro h
    simp [HRegion.flush_data, h]

/-- Witness for `flush_data_contract`: a concrete Old region below the
first window boundary, flushed once with status 0 and once with status 1. -/
theorem flush_data_contract_witness :
    ((sampleRegion .Old 10).flush_data 512 8192 0).1 = ⟨0, 0, 512⟩ ∧
    ((sampleRegion .Old 10).flush_data 512 8192 0).2 = some (sampleRegion .Old 10) ∧
    ((sampleRegion .Old 10).flush_data 512 8192 1).2 = none := by
  refine ⟨?_, ?_, ?_⟩
  · have h := (flush_data_contract (sampleRegion .Old 10) 512 8192 0).1
    simpa [sampleRegion] using h
  · exact (flush_data_contract (sampleRegion .Old 10) 512 8192 0).2.2 rfl
  · exact (flush_data_contract (sampleRegion .Old 10) 512 8192 1).2.1 (by decide)

/-- C10: the compact closure applied to a marked object whose header holds
no forwarding value performs no heap write at all (no copy, no mark-word
reinitialization) and only returns the object's size; writes happen only for
an object whose forwarding address is non-null and differs from its current
address (equality is a fatal assert). -/
theorem compact_apply_unforwarded_noop (obj : LiveObj) :
    (obj.forwardee = none →
      compactApply obj = some ([], obj.size) ∧ compactMove obj = obj) ∧
    (∀ ws sz, compactApply obj = some (ws, sz) → ws ≠ [] →
      ∃ d, obj.forwardee = some d ∧ d ≠ obj.addr) := by
  constructor
  · intro h
    constructor
    · simp [compactApply, h]
    · simp [compactMove, h]
  · intro ws sz happ hne
    match hf : obj.forwardee with
    | none =>
      rw [compactApply, hf] at happ
      simp at happ
      exact absurd happ.1 hne
    | some d =>
      rw [compactApply, hf] at happ
      simp only at happ
      by_cases hd : obj.addr = d
      · rw [if_pos hd] at happ
        exact absurd happ (by simp)
      · exact ⟨d, rfl, fun hdd => hd hdd.symm⟩

/-- Witness for `compact_apply_unforwarded_noop`: a concrete unforwarded
object of size 5. -/
theorem compact_apply_unforwarded_noop_witness :
    compactApply ⟨40, 5, none, [7]⟩ = some ([], 5) ∧
    compactMove ⟨40, 5, none, [7]⟩ = ⟨40, 5, none, [7]⟩ := by
  exact (compact_apply_unforwarded_noop ⟨40, 5, none, [7]⟩).1 rfl

/-- C7 counterexample: the claim says every type-transition operation —
`move_to_old` included — emits exactly one trace event per invocation,
before mutating the type.  `move_to_old` on an already-Old region emits no
event at all, and on an Eden region it mutates the tag first and traces
afterwards. -/
theorem move_to_old_trace_counterexample :
    ((sampleRegion .Old 0).move_to_old).2 = [] ∧
    ((sampleRegion .Eden 0).move_to_old).2 = [.mutate .Old, .trace .Old] := by
  constructor <;> rfl

/-- C7 amended: each of `set_free`, `set_eden`, `set_survivor`, `set_old`,
`set_open_archive`, `set_closed_archive` emits exactly one trace event,
before mutating the type tag; `set_starts_humongous`/`set_continues_humongous`
do the same whenever their emptiness preconditions hold; the `move_to_old`
relabel instead mutates first and then emits its single event, and emits
nothing when the type does not change (already Old). -/
theorem type_transition_trace (r first_hr : HRegion) :
    (r.set_free).2 = [.trace .Free, .mutate .Free] ∧
    (r.set_eden).2 = [.trace .Eden, .mutate .Eden] ∧
    (r.set_survivor).2 = [.trace .Survivor, .mutate .Survivor] ∧
    (r.set_old).2 = [.trace .Old, .mutate .Old] ∧
    (r.set_open_archive).2 = [.trace .OpenArchive, .mutate .OpenArchive] ∧
    (r.set_closed_archive).2 = [.trace .ClosedArchive, .mutate .ClosedArchive] ∧
    (r.rtype.is_humongous = false → r.top = r.bottom →
      (r.set_starts_humongous).map Prod.snd =
        some [.trace .StartsHumongous, .mutate .StartsHumongous]) ∧
    (r.rtype.is_humongous = false → r.top = r.bottom →
      first_hr.rtype = .StartsHumongous →
      (r.set_continues_humongous first_hr).map Prod.snd =
        some [.trace .ContinuesHumongous, .mutate .ContinuesHumongous]) ∧
    ((r.rtype = .Eden ∨ r.rtype = .Survivor) →
      (r.move_to_old).2 = [.mutate .Old, .trace .Old]) ∧
    (r.rtype = .Old → (r.move_to_old).2 = []) := by
  refine ⟨rfl, rfl, rfl, rfl, rfl, rfl, ?_, ?_, ?_, ?_⟩
  · intro hh he
    simp [HRegion.set_starts_humongous, hh, he]
  · intro hh he hf
    simp [HRegion.set_continues_humongous, hh, he, hf]
  · intro ht
    rcases ht with ht | ht <;>
      simp [HRegion.move_to_old, RegionType.relabel_as_old, ht]
  · intro ht
    simp [HRegion.move_to_old, RegionType.relabel_as_old, ht]

/-- Witness for `type_transition_trace`: a concrete empty Eden region and a
concrete humongous-start partner. -/
theorem type_transition_trace_witness :
    ((sampleRegion .Eden 0).set_free).2 = [.trace .Free, .mutate .Free] ∧
    ((sampleRegion .Eden 0).set_starts_humongous).map Prod.snd =
      some [.trace .StartsHumongous, .mutate .StartsHumongous] ∧
    ((sampleRegion .Eden 0).move_to_old).2 = [.mutate .Old, .trace .Old] := by
  have h := type_transition_trace (sampleRegion .Eden 0)
    (sampleRegion .StartsHumongous 0)
  exact ⟨h.1, h.2.2.2.2.2.2.1 rfl rfl, h.2.2.2.2.2.2.2.2.1 (Or.inl rfl)⟩

/-- C6 counterexample: the claim says `hr_clear` (on a region outside the
collection set) resets the allocation pointer `top` to `bottom`.  With
`clear_space = false` the allocation pointer is left where it was: on a
region with `bottom = 0`, `top = 5`, `hr_clear(keepRemSet := true,
clearSpace := false, locked := false)` succeeds yet keeps `top = 5`. -/
theorem hr_clear_top_counterexample :
    ((sampleRegion .Eden 5).hr_clear false true false false).map HRegion.top
      = some 5 ∧
    ((sampleRegion .Eden 5).hr_clear false true false false).map HRegion.bottom
      = some 0 := by
  constructor <;> rfl

/-- C6 amended: for every non-humongous region outside the active collection
set, `hr_clear(keepRemSet, clearSpace, locked)` resets `top` to `bottom`
exactly when `clearSpace` is true (leaving `top` untouched otherwise),
zeroes both liveness byte counters, resets both TAMS snapshots to `bottom`,
and clears the remembered set exactly when `keepRemSet` is false; invoking
it on a region in the active collection set is a fatal precondition
violation (as is a humongous region, which must have been filtered out). -/
theorem hr_clear_contract (r : HRegion) (keep_remset clear_space locked : Bool)
    (hh : r.humongous_start = none) :
    (r.hr_clear false keep_remset clear_space locked).map HRegion.top =
      some (if clear_space then r.bottom else r.top) ∧
    (r.hr_clear false keep_remset clear_space locked).map HRegion.bottom =
      some r.bottom ∧
    (r.hr_clear false keep_remset clear_space locked).map
      HRegion.prev_marked_bytes = some 0 ∧
    (r.hr_clear false keep_remset clear_space locked).map
      HRegion.next_marked_bytes = some 0 ∧
    (r.hr_clear false keep_remset clear_space locked).map
      HRegion.prev_top_at_mark_start = some r.bottom ∧
    (r.hr_clear false keep_remset clear_space locked).map
      HRegion.next_top_at_mark_start = some r.bottom ∧
    (r.hr_clear false keep_remset clear_space locked).map HRegion.rem_set =
      some (if keep_remset then r.rem_set else []) ∧
    (r.hr_clear false keep_remset clear_space locked).map HRegion.rtype =
      some .Free ∧
    r.hr_clear true keep_remset clear_space locked = none := by
  cases keep_remset <;> cases clear_space <;>
    simp [HRegion.hr_clear, hh, HRegion.set_free, HRegion.zero_marked_bytes,
      HRegion.init_top_at_mark_start, HRegion.clear]

/-- Witness for `hr_clear_contract`: the concrete Eden region with `top = 5`
and nonzero marked-byte counters, cleared with `clearSpace = true` and
`keepRemSet = false`. -/
theorem hr_clear_contract_witness :
    (sampleRegion .Eden 5).humongous_start = none ∧
    ((sampleRegion .Eden 5).hr_clear false false true true).map HRegion.top
      = some 0 ∧
    ((sampleRegion .Eden 5).hr_clear false false true true).map
      HRegion.prev_marked_bytes = some 0 ∧
    ((sampleRegion .Eden 5).hr_clear false false true true).map
      HRegion.rem_set = some [] := by
  have h := hr_clear_contract (sampleRegion .Eden 5) false true true rfl
  exact ⟨rfl, by simpa [sampleRegion] using h.1, h.2.2.1,
    by simpa using h.2.2.2.2.2.2.1⟩

/-- Semaphore invariant of the suspend window: as long as every step is
taken under `STS_lock`, the `_synchronize_wakeup` count is 1 exactly when
the set is synchronized (every joined thread stopped) and 0 otherwise.
A synchronized state admits no further member step, so the signal can never
be duplicated. -/
theorem stsRun_sem_inv : ∀ (ops : List STSOp) (s s' : STSState),
    s.sem = (if s.is_synchronized then 1 else 0) →
    stsRun s ops = some s' →
    s'.sem = (if s'.is_synchronized then 1 else 0) := by
  intro ops
  induction ops with
  | nil =>
    intro s s' hinv hrun
    simp only [stsRun] at hrun
    cases hrun
    exact hinv
  | cons op rest ih =>
    intro s s' hinv hrun
    simp only [stsRun] at hrun
    match hstep : stsStep s op with
    | none => rw [hstep] at hrun; cases hrun
    | some s1 =>
      rw [hstep] at hrun
      refine ih s1 s' ?_ hrun
      have hrun0 : s.running ≠ 0 := by
        intro h0
        cases op <;> simp [stsStep, h0] at hstep
      have hsync : s.is_synchronized = false := by
        have : ¬ s.stopped = s.running + s.stopped := by omega
        simpa [STSState.is_synchronized] using this
      rw [hsync] at hinv
      simp only [Bool.false_eq_true, if_false] at hinv
      cases op with
      | leave =>
        simp only [stsStep, if_neg hrun0, Option.some.injEq] at hstep
        split at hstep
        · rename_i hs
          subst hstep
          simp only [STSState.is_synchronized, decide_eq_true_eq] at hs
          have hcond : s.running - 1 = 0 := by omega
          simp [STSState.is_synchronized, hinv, hcond]
        · rename_i hs
          subst hstep
          simp only [STSState.is_synchronized, decide_eq_true_eq] at hs
          have hcond : ¬ s.running - 1 = 0 := by omega
          simp [STSState.is_synchronized, hinv, hcond]
      | yieldStop =>
        simp only [stsStep, if_neg hrun0, Option.some.injEq] at hstep
        split at hstep
        · rename_i hs
          subst hstep
          simp only [STSState.is_synchronized, decide_eq_true_eq] at hs
          have hcond : s.running - 1 = 0 := by omega
          simp [STSState.is_synchronized, hinv, hcond]
        · rename_i hs
          subst hstep
          simp only [STSState.is_synchronized, decide_eq_true_eq] at hs
          have hcond : ¬ s.running - 1 = 0 := by omega
          simp [STSState.is_synchronized, hinv, hcond]

/-- C9: when `synchronize()` raises the suspend flag while `r >= 1` joined
threads are running and none is stopped, it must wait; along every
lock-serialized sequence of member steps (`leave` / the stopping half of
`yield`) the requester semaphore holds exactly one signal exactly when the
set becomes synchronized (`stopped == joined`, i.e. the last running thread
yielded or left) and zero signals before that — no missed and no duplicate
wakeups, so the blocked `synchronize()` returns exactly when all joined
threads are quiesced.  With no joined thread it returns immediately. -/
theorem synchronize_exact_signal (r : Nat) (hr : 1 ≤ r) (ops : List STSOp) :
    synchronizeMustWait ⟨r, 0, 0⟩ = true ∧
    synchronizeMustWait ⟨0, 0, 0⟩ = false ∧
    (∀ s', stsRun ⟨r, 0, 0⟩ ops = some s' →
      (s'.sem = if s'.is_synchronized then 1 else 0) ∧ s'.sem ≤ 1) := by
  have hb : (⟨r, 0, 0⟩ : STSState).is_synchronized = false := by
    simp only [STSState.is_synchronized]
    simp only [decide_eq_false_iff_not]
    omega
  refine ⟨?_, ?_, ?_⟩
  · simp [synchronizeMustWait, hb]
  · simp [synchronizeMustWait, STSState.is_synchronized]
  · intro s' hrun
    have h0 : (⟨r, 0, 0⟩ : STSState).sem =
        (if (⟨r, 0, 0⟩ : STSState).is_synchronized then 1 else 0) := by
      rw [hb]
      simp
    have h := stsRun_sem_inv ops _ _ h0 hrun
    refine ⟨h, ?_⟩
    rw [h]
    by_cases hs : s'.is_synchronized <;> simp [hs]

/-- Witness for `synchronize_exact_signal`: three joined threads; two yield
and one leaves — the leaving thread is the last one out and posts the only
signal. -/
theorem synchronize_exact_signal_witness :
    (1 : Nat) ≤ 3 ∧
    stsRun ⟨3, 0, 0⟩ [.yieldStop, .yieldStop, .leave] = some ⟨0, 2, 1⟩ ∧
    stsRun ⟨3, 0, 0⟩ [.yieldStop, .yieldStop] = some ⟨1, 2, 0⟩ ∧
    (⟨0, 2, 1⟩ : STSState).sem =
      (if (⟨0, 2, 1⟩ : STSState).is_synchronized then 1 else 0) := by
  refine ⟨by decide, by decide, by decide, ?_⟩
  exact ((synchronize_exact_signal 3 (by decide)
    [.yieldStop, .yieldStop, .leave]).2.2 ⟨0, 2, 1⟩ (by decide)).1

/-- Marked objects laid out disjointly inside `[lo, hi)` occupy at most
`hi - lo` words. -/
theorem objsWithin_sum : ∀ (objs : List LiveObj) (lo hi : Nat),
    ObjsWithin lo hi objs → objs ≠ [] →
    lo + (objs.map LiveObj.size).sum ≤ hi := by
  intro objs
  induction objs with
  | nil => intro lo hi _ hne; exact absurd rfl hne
  | cons obj rest ih =>
    intro lo hi h _
    obtain ⟨hlo, hsz, hhi, hrest⟩ := h
    match rest with
    | [] =>
      simp only [List.map, List.sum_cons, List.sum_nil]
      omega
    | o2 :: r2 =>
      have := ih (obj.addr + obj.size) hi hrest (by simp)
      simp only [List.map, List.sum_cons] at this ⊢
      omega

/-- Phase 1 (spec-modelled destination calculation) followed by the copy
closure: the copy always succeeds, the compaction cursor ends at
`cursor + Σ sizes`, sizes are preserved, and every moved object lies in
`[cursor, cursor + Σ sizes)`. -/
theorem prepare_compact_spec : ∀ (objs : List LiveObj) (cursor lo hi : Nat),
    ObjsWithin lo hi objs → cursor ≤ lo →
    ∃ moved, applyCompactToMarked (prepareForward cursor objs) = some moved ∧
      cursorEnd cursor (prepareForward cursor objs) =
        cursor + (objs.map LiveObj.size).sum ∧
      moved.map LiveObj.size = objs.map LiveObj.size ∧
      (∀ o ∈ moved, 0 < o.size ∧
        o.addr + o.size ≤ cursor + (objs.map LiveObj.size).sum) := by
  intro objs
  induction objs with
  | nil =>
    intro cursor lo hi _ _
    exact ⟨[], rfl, by simp [prepareForward, cursorEnd], rfl, by simp⟩
  | cons obj rest ih =>
    intro cursor lo hi h hc
    obtain ⟨hlo, hsz, hhi, hrest⟩ := h
    obtain ⟨moved, happly, hend, hsizes, hbound⟩ :=
      ih (cursor + obj.size) (obj.addr + obj.size) hi hrest (by omega)
    have hca : cursor ≤ obj.addr := le_trans hc hlo
    by_cases heq : cursor = obj.addr
    · refine ⟨{ obj with forwardee := none } :: moved, ?_, ?_, ?_, ?_⟩
      · simp only [prepareForward, if_pos heq, applyCompactToMarked,
          compactApply, Option.bind_eq_bind]
        rw [happly]
        simp [compactMove]
      · simp only [prepareForward, if_pos heq, cursorEnd]
        rw [hend]
        simp only [List.map, List.sum_cons]
        omega
      · simpa using hsizes
      · intro o ho
        rcases List.mem_cons.mp ho with ho | ho
        · subst ho
          simp only [List.map, List.sum_cons]
          omega
        · have := hbound o ho
          simp only [List.map, List.sum_cons]
          omega
    · refine ⟨{ obj with addr := cursor, forwardee := none } :: moved, ?_, ?_, ?_, ?_⟩
      · simp only [prepareForward, if_neg heq, applyCompactToMarked,
          compactApply, Option.bind_eq_bind]
        have hne : ¬ obj.addr = cursor := fun hx => heq hx.symm
        rw [if_neg hne, happly]
        simp [compactMove]
      · simp only [prepareForward, if_neg heq, cursorEnd]
        rw [hend]
        simp only [List.map, List.sum_cons]
        omega
      · simpa using hsizes
      · intro o ho
        rcases List.mem_cons.mp ho with ho | ho
        · subst ho
          simp only [List.map, List.sum_cons]
          omega
        · have := hbound o ho
          simp only [List.map, List.sum_cons]
          omega

/-- C2: running phases 1–3 on a non-humongous region with a known
live-object set succeeds, the live bytes after compaction (`top' - bottom`)
equal the sum of the live objects' sizes before compaction, sizes are
preserved, and every post-compaction object address lies strictly below the
pre-compaction `top`. -/
theorem compact_region_layout (r : CRegion)
    (hobjs : ObjsWithin r.bottom r.top r.marked)
    (hh : r.rtype.is_humongous = false) :
    ∃ r', compact_region r = some r' ∧
      r'.top = r.bottom + (r.marked.map LiveObj.size).sum ∧
      r'.marked.map LiveObj.size = r.marked.map LiveObj.size ∧
      (∀ o ∈ r'.marked, o.addr < r.top) := by
  obtain ⟨moved, happly, hend, hsizes, hbound⟩ :=
    prepare_compact_spec r.marked r.bottom r.bottom r.top hobjs le_rfl
  refine ⟨{ r with marked := moved, top := cursorEnd r.bottom (prepareForward r.bottom r.marked) }, ?_, ?_, ?_, ?_⟩
  · simp [compact_region, hh, happly]
  · simpa using hend
  · simpa using hsizes
  · intro o ho
    simp only at ho
    have hb := hbound o ho
    have hne : r.marked ≠ [] := by
      intro h0
      rw [h0] at hsizes
      simp at hsizes
      rw [hsizes] at ho
      exact absurd ho (List.not_mem_nil o)
    have hsum := objsWithin_sum r.marked r.bottom r.top hobjs hne
    omega

/-- Witness for `compact_region_layout`: a region `[0, 100)` with live
objects of sizes 4 and 6 at addresses 10 and 50; compaction packs them at
0 and 4 and sets `top = 10`. -/
theorem compact_region_layout_witness :
    ObjsWithin 0 100 [⟨10, 4, none, []⟩, ⟨50, 6, none, []⟩] ∧
    ∃ r', compact_region ⟨0, 100, .Old, [⟨10, 4, none, []⟩, ⟨50, 6, none, []⟩]⟩
        = some r' ∧ r'.top = 10 ∧ (∀ o ∈ r'.marked, o.addr < 100) := by
  have hin : ObjsWithin 0 100 [⟨10, 4, none, []⟩, ⟨50, 6, none, []⟩] := by
    refine ⟨by decide, by decide, by decide, by decide, by decide, by decide, trivial⟩
  refine ⟨hin, ?_⟩
  obtain ⟨r', heq, htop, _, haddr⟩ :=
    compact_region_layout ⟨0, 100, .Old, [⟨10, 4, none, []⟩, ⟨50, 6, none, []⟩]⟩ hin rfl
  exact ⟨r', heq, by simpa using htop, haddr⟩

/-- With no marked address, `apply_to_marked_objects` visits nothing: the
adjust walk returns the objects untouched and records nothing. -/
theorem adjustMarked_no_marks (fwd : Nat → Nat) (b g : Nat) :
    ∀ objs : List LiveObj, adjustMarked fwd b g [] objs = (objs, []) := by
  intro objs
  induction objs with
  | nil => rfl
  | cons obj rest ih =>
    simp [adjustMarked, ih]

/-- The adjust walk never moves an object: addresses and sizes of the walked
objects are unchanged (only reference fields are rewritten). -/
theorem adjustMarked_no_motion (fwd : Nat → Nat) (b g : Nat)
    (markedAddrs : List Nat) :
    ∀ objs : List LiveObj,
      ((adjustMarked fwd b g markedAddrs objs).1).map LiveObj.addr =
        objs.map LiveObj.addr ∧
      ((adjustMarked fwd b g markedAddrs objs).1).map LiveObj.size =
        objs.map LiveObj.size := by
  intro objs
  induction objs with
  | nil => exact ⟨rfl, rfl⟩
  | cons obj rest ih =>
    by_cases hm : obj.addr ∈ markedAddrs <;>
      simp [adjustMarked, hm, adjustObj, ih.1, ih.2]

/-- C5 counterexample: the claim says no reference field inside a
closed-archive region is ever rewritten by the adjust phase.  The cited
`do_heap_region` has no closed-archive branch: a closed-archive region with
a marked object whose intra-region field targets a forwarded word falls into
the ordinary `else` branch and has that field rewritten. -/
theorem adjust_closed_archive_counterexample :
    (do_heap_region (fun _ => 0)
        ⟨0, 64, 20, .ClosedArchive, [⟨10, 2, none, [12]⟩], [10]⟩).1.objs ≠
      [⟨10, 2, none, [12]⟩] := by
  decide

/-- C5 amended: the adjust phase gives closed-archive regions no special
treatment (they take the ordinary marked-object walk), so a closed-archive
region with no marked objects — the contract for archived content — is left
entirely unchanged with nothing queued; open-archive regions have exactly
their marked objects' intra-region pointers adjusted in place, their mark
bitmap cleared, and no object physically moved (addresses, sizes and bounds
are untouched); and neither archive kind is ever placed on a compaction
queue, so neither is physically compacted. -/
theorem adjust_archive_frame (fwd : Nat → Nat) (r : AdjRegion) :
    (r.rtype = .ClosedArchive → r.markedAddrs = [] →
      do_heap_region fwd r = (r, [])) ∧
    (r.rtype = .OpenArchive →
      (do_heap_region fwd r).1.objs.map LiveObj.addr =
        r.objs.map LiveObj.addr ∧
      (do_heap_region fwd r).1.objs.map LiveObj.size =
        r.objs.map LiveObj.size ∧
      (do_heap_region fwd r).1.top = r.top ∧
      (do_heap_region fwd r).1.bottom = r.bottom ∧
      (do_heap_region fwd r).1.markedAddrs = []) ∧
    (r.rtype = .OpenArchive ∨ r.rtype = .ClosedArchive →
      compactionQueueEligible r.rtype = false) := by
  refine ⟨?_, ?_, ?_⟩
  · intro ht hm
    obtain ⟨b, g, t, ty, objs, ma⟩ := r
    simp only at ht hm
    subst ht
    subst hm
    rw [do_heap_region]
    rw [if_neg (by simp [RegionType.is_humongous]), if_neg (by simp)]
    rw [adjustMarked_no_marks]
  · intro ht
    have hno := adjustMarked_no_motion fwd r.bottom r.grain r.markedAddrs r.objs
    rw [do_heap_region]
    rw [if_neg (by simp [ht, RegionType.is_humongous]), if_pos ht]
    exact ⟨hno.1, hno.2, rfl, rfl, rfl⟩
  · intro ht
    rcases ht with ht | ht <;> simp [compactionQueueEligible, ht]

/-- Witness for `adjust_archive_frame`: a concrete closed-archive region
with an empty bitmap is untouched; a concrete open-archive region keeps its
object addresses and loses its mark bits. -/
theorem adjust_archive_frame_witness :
    do_heap_region (fun _ => 0)
        ⟨0, 64, 20, .ClosedArchive, [⟨10, 2, none, [12]⟩], []⟩ =
      (⟨0, 64, 20, .ClosedArchive, [⟨10, 2, none, [12]⟩], []⟩, []) ∧
    (do_heap_region (fun _ => 0)
        ⟨0, 64, 20, .OpenArchive, [⟨10, 2, none, [12]⟩], [10]⟩).1.objs.map
      LiveObj.addr = [10] ∧
    (do_heap_region (fun _ => 0)
        ⟨0, 64, 20, .OpenArchive, [⟨10, 2, none, [12]⟩], [10]⟩).1.markedAddrs
      = [] := by
  have h1 := (adjust_archive_frame (fun _ => 0)
    ⟨0, 64, 20, .ClosedArchive, [⟨10, 2, none, [12]⟩], []⟩).1 rfl rfl
  have h2 := (adjust_archive_frame (fun _ => 0)
    ⟨0, 64, 20, .OpenArchive, [⟨10, 2, none, [12]⟩], [10]⟩).2.1 rfl
  exact ⟨h1, by simpa using h2.1, h2.2.2.2.2⟩

namespace BOT

/-- The backward decode is monotone in fuel: a chain that finishes within
`fuel` steps finishes identically with more fuel. -/
theorem decode_fuel_mono : ∀ (fuel : Nat) (off : CardMap) (c : Nat) (q : Nat),
    decodeCard off fuel c = some q →
    ∀ fuel', fuel ≤ fuel' → decodeCard off fuel' c = some q := by
  intro fuel
  induction fuel with
  | zero => intro off c q h; cases h
  | succ f ih =>
    intro off c q h fuel' hle
    match fuel', hle with
    | f' + 1, hle =>
      rw [decodeCard] at h
      rw [decodeCard]
      by_cases he : off c < N_words
      · rw [if_pos he] at h ⊢; exact h
      · rw [if_neg he] at h ⊢
        by_cases hb : entry_to_cards_back (off c) ≤ c
        · rw [if_pos hb] at h ⊢
          exact ih off _ q h f' (Nat.succ_le_succ_iff.mp hle)
        · rw [if_neg hb] at h; cases h

/-- The backward decode from card `c` reads only entries at cards `<= c`. -/
theorem decode_congr : ∀ (fuel : Nat) (off off2 : CardMap) (c : Nat),
    (∀ c', c' ≤ c → off c' = off2 c') →
    decodeCard off fuel c = decodeCard off2 fuel c := by
  intro fuel
  induction fuel with
  | zero => intro off off2 c _; rfl
  | succ f ih =>
    intro off off2 c hagree
    rw [decodeCard, decodeCard, hagree c le_rfl]
    by_cases he : off2 c < N_words
    · rw [if_pos he, if_pos he]
    · rw [if_neg he, if_neg he]
      by_cases hb : entry_to_cards_back (off2 c) ≤ c
      · rw [if_pos hb, if_pos hb]
        exact ih off off2 (c - entry_to_cards_back (off2 c))
          (fun c' hc' => hagree c' (le_trans hc' (Nat.sub_le _ _)))
      · rw [if_neg hb, if_neg hb]

/-- Characterization of the `set_remainder_to_point_to_start_incl` loop: at
iteration `i` the running fill cursor is `sc - 1 + 8^i`; provided the total
span fits the remaining buckets, every card `c` in `[cursor, ec]` ends up
with the logarithmic entry `N_words + log8(c - sc + 1)` and every other card
keeps its old entry. -/
theorem setRemainderAux_spec : ∀ (fuel : Nat) (i : Nat) (off : CardMap) (sc ec : Nat),
    1 ≤ sc →
    i + fuel = N_powers →
    sc - 1 + 8 ^ i ≤ ec + 1 →
    ec ≤ sc - 1 + (8 ^ (i + fuel) - 1) →
    ∀ c, setRemainderAux sc ec fuel off (sc - 1 + 8 ^ i) i c =
      if sc - 1 + 8 ^ i ≤ c ∧ c ≤ ec then N_words + Nat.log 8 (c - sc + 1)
      else off c := by
  intro fuel
  induction fuel with
  | zero =>
    intro i off sc ec hsc _ hcur hec c
    rw [setRemainderAux]
    rw [Nat.add_zero] at hec
    have hp : 1 ≤ 8 ^ i := Nat.one_le_pow _ _ (by decide)
    rw [if_neg]
    omega
  | succ f ih =>
    intro i off sc ec hsc hif hcur hec c
    have hp : 1 ≤ 8 ^ i := Nat.one_le_pow _ _ (by decide)
    have hp1 : 1 ≤ 8 ^ (i + 1) := Nat.one_le_pow _ _ (by decide)
    have hpow : 8 ^ i ≤ 8 ^ (i + 1) :=
      Nat.pow_le_pow_right (by decide) (Nat.le_succ i)
    rw [setRemainderAux]
    simp only [power_to_cards_back]
    by_cases hbr : ec ≤ sc - 1 + (8 ^ (i + 1) - 1)
    · rw [if_pos hbr]
      by_cases hcc : sc - 1 + 8 ^ i ≤ c ∧ c ≤ ec
      · rw [if_pos hcc]
        simp only [setOffsetRange]
        rw [if_pos hcc]
        have hlog : Nat.log 8 (c - sc + 1) = i := by
          refine Nat.log_eq_of_pow_le_of_lt_pow ?_ ?_
          · omega
          · omega
        rw [hlog]
      · rw [if_neg hcc]
        simp only [setOffsetRange]
        rw [if_neg hcc]
    · rw [if_neg hbr]
      have hstep : sc - 1 + (8 ^ (i + 1) - 1) + 1 = sc - 1 + 8 ^ (i + 1) := by omega
      rw [hstep]
      have hih := ih (i + 1) (setOffsetRange off (sc - 1 + 8 ^ i)
          (sc - 1 + (8 ^ (i + 1) - 1)) (N_words + i)) sc ec hsc
          (by omega) (by omega) ?_ c
      · rw [hih]
        by_cases h1 : sc - 1 + 8 ^ (i + 1) ≤ c ∧ c ≤ ec
        · rw [if_pos h1, if_pos (by omega : sc - 1 + 8 ^ i ≤ c ∧ c ≤ ec)]
        · rw [if_neg h1]
          simp only [setOffsetRange]
          by_cases h2 : sc - 1 + 8 ^ i ≤ c ∧ c ≤ sc - 1 + (8 ^ (i + 1) - 1)
          · rw [if_pos h2, if_pos (by omega : sc - 1 + 8 ^ i ≤ c ∧ c ≤ ec)]
            have hlog : Nat.log 8 (c - sc + 1) = i := by
              refine Nat.log_eq_of_pow_le_of_lt_pow ?_ ?_
              · omega
              · omega
            rw [hlog]
          · rw [if_neg h2, if_neg (by omega)]
      · rw [show i + 1 + f = i + (f + 1) from by omega]
        exact hec

/-- Decoding any card freshly stamped by `alloc_block_work` for a block
starting at `s` (direct entry `N_words * index - s` at the cursor card,
logarithmic entries on the rest) terminates at exactly `s`.  The
`N_words`-valued entry (block starting a full card below the threshold)
occurs only for the very first block at `bottom`, where the chain takes one
extra hop onto card 0. -/
theorem decode_stamped (off : CardMap) (index end_index s : Nat)
    (hidx : 1 ≤ index)
    (hoff : off index = N_words * index - s)
    (hs : s ≤ N_words * index)
    (hle : N_words * index - s ≤ N_words)
    (hB : N_words * index - s = N_words → s = 0 ∧ index = 1 ∧ off 0 = 0)
    (hlog : ∀ c, index + 1 ≤ c → c ≤ end_index →
      off c = N_words + Nat.log 8 (c - index)) :
    ∀ c, index ≤ c → c ≤ end_index → decodeCard off (c + 1) c = some s := by
  intro c
  induction c using Nat.strong_induction_on with
  | _ c ih =>
    intro hc1 hc2
    rcases Nat.eq_or_lt_of_le hc1 with heq | hlt
    · subst heq
      rw [decodeCard, hoff]
      by_cases hE : N_words * index - s < N_words
      · rw [if_pos hE]
        simp only [address_for_index]
        congr 1
        simp only [N_words] at *
        omega
      · rw [if_neg hE]
        have hEeq : N_words * index - s = N_words := by omega
        obtain ⟨hs0, hi1, h00⟩ := hB hEeq
        have hback : entry_to_cards_back (N_words * index - s) = 1 := by
          rw [hEeq]
          simp [entry_to_cards_back, power_to_cards_back]
        rw [hback, if_pos (by omega)]
        subst hi1
        have h10 : (1 : Nat) - 1 = 0 := rfl
        rw [h10]
        rw [decodeCard, h00, if_pos (by simp [N_words])]
        rw [hs0]
        simp [address_for_index]
    · have hc1' : index + 1 ≤ c := hlt
      have hcg : off c = N_words + Nat.log 8 (c - index) := hlog c hc1' hc2
      have hne : c - index ≠ 0 := by omega
      have hj : 8 ^ Nat.log 8 (c - index) ≤ c - index :=
        Nat.pow_log_le_self 8 hne
      have hjp : 1 ≤ 8 ^ Nat.log 8 (c - index) := Nat.one_le_pow _ _ (by decide)
      rw [decodeCard, hcg]
      rw [if_neg (by simp only [N_words]; omega)]
      have hback : entry_to_cards_back (N_words + Nat.log 8 (c - index)) =
          8 ^ Nat.log 8 (c - index) := by
        simp [entry_to_cards_back, power_to_cards_back]
      rw [hback, if_pos (by omega)]
      have hih := ih (c - 8 ^ Nat.log 8 (c - index)) (by omega) (by omega) (by omega)
      exact decode_fuel_mono _ off _ s hih c (by omega)

/-- Effect of `alloc_block_work` on the offset array when the cursor sits at
card `L` (threshold `N_words * L`): the cursor card gets the direct entry
`N_words * L - s`, the further cards covered by the block get logarithmic
entries, and no other card changes. -/
theorem alloc_block_work_offsets (st : BotPart) (L s e : Nat)
    (hidx : st.index = L) (hthr : st.threshold = N_words * L) (hL : 1 ≤ L)
    (hgate : N_words * L < e) (he : e ≤ 2 ^ 26) :
    ∀ c, (alloc_block_work st s e).offsets c =
      if c = L then N_words * L - s
      else if L + 1 ≤ c ∧ c ≤ (e - 1) / N_words then
        N_words + Nat.log 8 (c - L)
      else st.offsets c := by
  intro c
  have hNw : N_words = 64 := rfl
  have hgate64 : 64 * L < e := by simpa [hNw] using hgate
  have he64 : e ≤ 67108864 := by
    have h2 : (2 : Nat) ^ 26 = 67108864 := by norm_num
    omega
  have hdd : (e - 1) / N_words = (e - 1) / 64 := rfl
  have hbb : N_words * L = 64 * L := rfl
  have hend : L ≤ (e - 1) / N_words := by
    simp only [hNw]
    omega
  rw [alloc_block_work]
  simp only [hidx, hthr, index_for, pointer_delta]
  by_cases hrem : L + 1 ≤ (e - 1) / N_words
  · rw [if_pos hrem]
    rw [set_remainder_to_point_to_start]
    rw [if_neg (by simp only [address_for_index, hNw]; omega)]
    have hif1 : index_for (address_for_index (L + 1)) = L + 1 := by
      simp only [index_for, address_for_index, hNw]
      omega
    have hif2 : index_for (address_for_index ((e - 1) / N_words) + N_words - 1)
        = (e - 1) / N_words := by
      simp only [index_for, address_for_index, hNw]
      omega
    rw [hif1, hif2]
    rw [set_remainder_to_point_to_start_incl]
    rw [if_neg (by omega)]
    have hspec := setRemainderAux_spec N_powers 0
      (setOffsetCard st.offsets L (N_words * L - s)) (L + 1) ((e - 1) / N_words)
      (by omega) (by decide) ?_ ?_ c
    · simp only [pow_zero, Nat.add_sub_cancel] at hspec
      rw [hspec]
      by_cases hcL : c = L
      · rw [if_neg (by omega), if_pos hcL]
        simp [setOffsetCard, hcL]
      · rw [if_neg hcL]
        by_cases hcr : L + 1 ≤ c ∧ c ≤ (e - 1) / N_words
        · rw [if_pos hcr, if_pos hcr]
          congr 2
          omega
        · rw [if_neg hcr, if_neg hcr]
          simp [setOffsetCard, hcL]
    · simp only [pow_zero]
      omega
    · simp only [N_powers, hNw]
      have h814 : (8 : Nat) ^ (0 + 14) = 4398046511104 := by norm_num
      have hd : (e - 1) / 64 ≤ 1048576 := by omega
      omega
  · rw [if_neg hrem]
    have hendeq : (e - 1) / N_words = L := by omega
    by_cases hcL : c = L
    · rw [if_pos hcL]
      simp [setOffsetCard, hcL]
    · rw [if_neg hcL, if_neg (by omega)]
      simp [setOffsetCard, hcL]

/-- Effect of `alloc_block_work` on the allocation cursor: it moves to the
card past the block's last card. -/
theorem alloc_block_work_cursor (st : BotPart) (s e : Nat) :
    (alloc_block_work st s e).index = (e - 1) / N_words + 1 ∧
    (alloc_block_work st s e).threshold = N_words * ((e - 1) / N_words + 1) := by
  constructor
  · rfl
  · show address_for_index (index_for (e - 1)) + N_words = _
    simp only [address_for_index, index_for]
    ring

/-- One valid `alloc_block` call preserves the BOT invariant: the gate keeps
blocks below the threshold out of the table, and a crossing block stamps the
direct entry at the cursor card plus monotone logarithmic backskips whose
decode lands exactly on the block start. -/
theorem goodState_alloc (st : BotPart) (top : Nat) (blocks : List (Nat × Nat))
    (hg : GoodState st top blocks) (s e : Nat)
    (hts : top ≤ s) (hse : s < e) (hsthr : s ≤ st.threshold) (hee : e ≤ 2 ^ 26) :
    GoodState (alloc_block st s e) e (blocks ++ [(s, e)]) := by
  have hNw : N_words = 64 := rfl
  have hslt : stampLimit top = max 1 ((top + 63) / 64) := rfl
  have hsle : stampLimit e = max 1 ((e + 63) / 64) := rfl
  have hL1 : 1 ≤ stampLimit top := le_max_left 1 _
  by_cases hgate : st.threshold < e
  · -- the block crosses the threshold: alloc_block_work runs
    have hgate' : N_words * stampLimit top < e := by rw [← hg.thr_eq]; exact hgate
    have hsthr' : s ≤ N_words * stampLimit top := by rw [← hg.thr_eq]; exact hsthr
    have hoff := alloc_block_work_offsets st (stampLimit top) s e hg.idx_eq
      hg.thr_eq hL1 hgate' hee
    have hcur := alloc_block_work_cursor st s e
    have hgate64 : 64 * stampLimit top < e := by rw [← hNw]; exact hgate'
    have hsthr64 : s ≤ 64 * stampLimit top := by rw [← hNw]; exact hsthr'
    have hLe : stampLimit e = (e - 1) / N_words + 1 := by
      rw [hsle, hNw]
      omega
    have hLle : stampLimit top ≤ (e - 1) / N_words := by
      rw [hNw]
      omega
    have hdirect_le : N_words * stampLimit top - s ≤ N_words := by
      rw [hNw] at *
      omega
    have hab : alloc_block st s e = alloc_block_work st s e := by
      rw [alloc_block, if_pos hgate]
    rw [hab]
    refine ⟨?_, ?_, ?_, ?_, ?_, ?_⟩
    · rw [hcur.2, hLe]
    · rw [hcur.1, hLe]
    · rw [hoff 0, if_neg (by omega), if_neg (by omega)]
      exact hg.card0
    · intro c hc
      rw [hLe] at hc
      rw [hoff c, if_neg (by omega), if_neg (by omega)]
      exact hg.zero_beyond c (by omega)
    · intro c hc1 hc2
      rw [hLe] at hc2
      by_cases hcold : c < stampLimit top
      · obtain ⟨s0, e0, hmem, hs0, he0, hdec⟩ := hg.decode_ok c hc1 hcold
        refine ⟨s0, e0, List.mem_append_left _ hmem, hs0, he0, ?_⟩
        rw [decode_congr (c + 1) (alloc_block_work st s e).offsets st.offsets c
          (fun c' hc' => by
            rw [hoff c', if_neg (by omega), if_neg (by omega)])]
        exact hdec
      · -- a freshly stamped card: decode lands on the new block's start
        have hcL : stampLimit top ≤ c := by omega
        refine ⟨s, e, List.mem_append_right _ (by simp), ?_, ?_, ?_⟩
        · calc s ≤ N_words * stampLimit top := hsthr'
            _ ≤ N_words * c := Nat.mul_le_mul_left _ hcL
        · rw [hNw]
          omega
        · refine decode_stamped (alloc_block_work st s e).offsets
            (stampLimit top) ((e - 1) / N_words) s hL1 ?_ hsthr' hdirect_le ?_ ?_ c hcL
            (by omega)
          · rw [hoff (stampLimit top), if_pos rfl]
          · intro hEeq
            have htop0 : top = 0 := by
              rw [hNw] at *
              omega
            have hsl1 : stampLimit top = 1 := by
              rw [hslt, htop0]
              decide
            have hs0 : s = 0 := by
              rw [hsl1, hNw] at hEeq hsthr'
              omega
            refine ⟨hs0, hsl1, ?_⟩
            rw [hoff 0, if_neg (by omega), if_neg (by omega)]
            exact hg.card0
          · intro c' hc1' hc2'
            rw [hoff c', if_neg (by omega), if_pos (by omega)]
    · intro c hc
      rw [hoff c] at hc ⊢
      by_cases hcL : c = stampLimit top
      · rw [if_pos hcL] at hc
        omega
      · rw [if_neg hcL] at hc
        by_cases hcr : stampLimit top + 1 ≤ c ∧ c ≤ (e - 1) / N_words
        · rw [if_pos hcr] at hc
          rw [if_neg hcL, if_pos hcr]
          have hj1 : 1 ≤ Nat.log 8 (c - stampLimit top) := by omega
          have hback : entry_to_cards_back (N_words + Nat.log 8 (c - stampLimit top))
              = 8 ^ Nat.log 8 (c - stampLimit top) := by
            simp [entry_to_cards_back, power_to_cards_back]
          rw [hback]
          have hne0 : c - stampLimit top ≠ 0 := by omega
          have hple : 8 ^ Nat.log 8 (c - stampLimit top) ≤ c - stampLimit top :=
            Nat.pow_log_le_self 8 hne0
          have hp1 : 1 ≤ 8 ^ Nat.log 8 (c - stampLimit top) :=
            Nat.one_le_pow _ _ (by decide)
          refine ⟨by omega, ?_⟩
          rw [hoff (c - 8 ^ Nat.log 8 (c - stampLimit top))]
          by_cases htL : c - 8 ^ Nat.log 8 (c - stampLimit top) = stampLimit top
          · rw [if_pos htL]
            omega
          · rw [if_neg htL, if_pos (by omega)]
            have hmono : Nat.log 8 (c - 8 ^ Nat.log 8 (c - stampLimit top)
                - stampLimit top) ≤ Nat.log 8 (c - stampLimit top) :=
              Nat.log_mono_right (by omega)
            omega
        · rw [if_neg hcr] at hc
          rw [if_neg hcL, if_neg hcr]
          have hcsmall : c < stampLimit top := by
            by_contra hge
            have : st.offsets c = 0 := hg.zero_beyond c (by omega)
            rw [hNw] at hc
            omega
          obtain ⟨hb1, hb2⟩ := hg.mono c hc
          refine ⟨hb1, ?_⟩
          rw [hoff (c - entry_to_cards_back (st.offsets c)),
            if_neg (by omega), if_neg (by omega)]
          exact hb2
  · -- gated: the block stays below the threshold and nothing changes
    have hab : alloc_block st s e = st := by
      rw [alloc_block, if_neg hgate]
    rw [hab]
    have hethr : e ≤ N_words * stampLimit top := by
      rw [← hg.thr_eq]
      omega
    have heq : stampLimit e = stampLimit top := by
      rw [hNw] at hethr
      rw [hsle, hslt]
      omega
    refine ⟨?_, ?_, hg.card0, ?_, ?_, hg.mono⟩
    · rw [heq]; exact hg.thr_eq
    · rw [heq]; exact hg.idx_eq
    · intro c hc
      exact hg.zero_beyond c (by rw [heq] at hc; exact hc)
    · intro c hc1 hc2
      rw [heq] at hc2
      obtain ⟨s0, e0, hmem, hs0, he0, hdec⟩ := hg.decode_ok c hc1 hc2
      exact ⟨s0, e0, List.mem_append_left _ hmem, hs0, he0, hdec⟩

/-- The freshly initialized part satisfies the invariant over the empty
block list. -/
theorem goodState_init : GoodState initBot 0 [] := by
  refine ⟨by decide, by decide, rfl, fun _ _ => rfl, ?_, ?_⟩
  · intro c hc1 hc2
    have : stampLimit 0 = 1 := by decide
    omega
  · intro c hc
    have : initBot.offsets c = 0 := rfl
    rw [this] at hc
    simp [N_words] at hc

/-- Running a valid `alloc_block` sequence preserves the invariant. -/
theorem goodState_run : ∀ (bs : List (Nat × Nat)) (st : BotPart) (top : Nat)
    (blocks : List (Nat × Nat)),
    GoodState st top blocks → ValidFrom top bs →
    GoodState (runAllocs st bs) (lastTop top bs) (blocks ++ bs) := by
  intro bs
  induction bs with
  | nil =>
    intro st top blocks hg _
    simpa [runAllocs, lastTop] using hg
  | cons b rest ih =>
    intro st top blocks hg hv
    obtain ⟨s, e⟩ := b
    obtain ⟨hts, hse, hsthr, hee, hvrest⟩ := hv
    have hsthr' : s ≤ st.threshold := by
      rw [hg.thr_eq]
      have : N_words * max 1 ((top + N_words - 1) / N_words) =
          N_words * stampLimit top := by
        simp only [stampLimit, N_words]
        omega
      omega
    have hstep := goodState_alloc st top blocks hg s e hts hse hsthr' hee
    have hrest := ih (alloc_block st s e) e (blocks ++ [(s, e)]) hstep hvrest
    have hfold : runAllocs st ((s, e) :: rest) = runAllocs (alloc_block st s e) rest := rfl
    have hlast : lastTop top ((s, e) :: rest) = lastTop e rest := rfl
    rw [hfold, hlast]
    simpa [List.append_assoc] using hrest

/-- C4: after any valid `alloc_block` sequence, every card holding a
logarithmic backskip code (entry above `N_words`) decodes to a backskip of
at least one card that stays inside the region (never proceeds below card
0 of the region), lands on a card whose stored entry is at most the current
entry, and the full backward chain terminates at the exact start of the
recorded block covering the card's base address. -/
theorem bot_backskip_chain (bs : List (Nat × Nat)) (hvalid : ValidFrom 0 bs)
    (c : Nat) (hlog : N_words < (runAllocs initBot bs).offsets c) :
    1 ≤ entry_to_cards_back ((runAllocs initBot bs).offsets c) ∧
    entry_to_cards_back ((runAllocs initBot bs).offsets c) ≤ c ∧
    (runAllocs initBot bs).offsets
        (c - entry_to_cards_back ((runAllocs initBot bs).offsets c)) ≤
      (runAllocs initBot bs).offsets c ∧
    ∃ s e, (s, e) ∈ bs ∧ s ≤ N_words * c ∧ N_words * c < e ∧
      decodeCard (runAllocs initBot bs).offsets (c + 1) c = some s := by
  have hrun := goodState_run bs initBot 0 [] goodState_init hvalid
  rw [List.nil_append] at hrun
  have hc1 : 1 ≤ c := by
    rcases Nat.eq_zero_or_pos c with h0 | h1
    · rw [h0] at hlog
      rw [hrun.card0] at hlog
      simp [N_words] at hlog
    · exact h1
  have hc2 : c < stampLimit (lastTop 0 bs) := by
    by_contra hge
    rw [hrun.zero_beyond c (by omega)] at hlog
    simp [N_words] at hlog
  obtain ⟨hb1, hb2⟩ := hrun.mono c hlog
  refine ⟨Nat.one_le_pow _ _ (by decide), hb1, hb2, ?_⟩
  exact hrun.decode_ok c hc1 hc2

/-- Witness for `bot_backskip_chain`: one 640-word block from `bottom`; card
9 carries the logarithmic entry 65 (backskip 8 cards) and its chain decodes
to the block start 0. -/
theorem bot_backskip_chain_witness :
    ValidFrom 0 [(0, 640)] ∧
    N_words < (runAllocs initBot [(0, 640)]).offsets 9 ∧
    ∃ s e, (s, e) ∈ [(0, 640)] ∧ s ≤ N_words * 9 ∧ N_words * 9 < e ∧
      decodeCard (runAllocs initBot [(0, 640)]).offsets 10 9 = some s := by
  refine ⟨by decide, by decide, ?_⟩
  exact (bot_backskip_chain [(0, 640)] (by decide) 9 (by decide)).2.2.2

/-- A contiguous allocation sequence is a valid one (in particular every
block starts at or before the current threshold). -/
theorem contig_valid : ∀ (bs : List (Nat × Nat)) (t : Nat),
    Contig t bs → ValidFrom t bs := by
  intro bs
  induction bs with
  | nil => intro t _; trivial
  | cons b rest ih =>
    intro t hc
    obtain ⟨s, e⟩ := b
    obtain ⟨hst, hse, hee, hrest⟩ := hc
    refine ⟨le_of_eq hst.symm, hse, ?_, hee, ih e hrest⟩
    subst hst
    simp only [N_words]
    omega

/-- The final allocation top dominates the starting one. -/
theorem lastTop_ge : ∀ (bs : List (Nat × Nat)) (t : Nat),
    Contig t bs → t ≤ lastTop t bs := by
  intro bs
  induction bs with
  | nil => intro t _; exact le_rfl
  | cons b rest ih =>
    intro t hc
    obtain ⟨s, e⟩ := b
    obtain ⟨hst, hse, _, hrest⟩ := hc
    calc t = s := hst.symm
      _ ≤ e := le_of_lt hse
      _ ≤ lastTop e rest := ih e hrest

/-- Bounds of a member of a contiguous sequence. -/
theorem contig_mem_bounds : ∀ (bs : List (Nat × Nat)) (t a b : Nat),
    Contig t bs → (a, b) ∈ bs → t ≤ a ∧ a < b ∧ b ≤ lastTop t bs := by
  intro bs
  induction bs with
  | nil => intro t a b _ hmem; cases hmem
  | cons hd rest ih =>
    intro t a b hc hmem
    obtain ⟨s, e⟩ := hd
    obtain ⟨hst, hse, _, hrest⟩ := hc
    rcases List.mem_cons.mp hmem with hmem | hmem
    · injection hmem with h1 h2
      subst h1
      subst h2
      exact ⟨le_of_eq hst.symm, hse,
        by simpa [lastTop] using lastTop_ge rest b hrest⟩
    · obtain ⟨ht, hab, hlast⟩ := ih e a b hrest hmem
      subst hst
      exact ⟨by omega, hab, by simpa [lastTop] using hlast⟩

/-- Contiguity splits across an append. -/
theorem contig_append : ∀ (l1 l2 : List (Nat × Nat)) (t : Nat),
    Contig t (l1 ++ l2) → Contig t l1 ∧ Contig (lastTop t l1) l2 := by
  intro l1
  induction l1 with
  | nil => intro l2 t hc; exact ⟨trivial, hc⟩
  | cons hd rest ih =>
    intro l2 t hc
    obtain ⟨s, e⟩ := hd
    obtain ⟨hst, hse, hee, hrest⟩ := hc
    obtain ⟨h1, h2⟩ := ih l2 e hrest
    exact ⟨⟨hst, hse, hee, h1⟩, h2⟩

/-- Two members of a contiguous sequence covering the same word coincide. -/
theorem contig_no_overlap : ∀ (bs : List (Nat × Nat)) (t a b a' b' x : Nat),
    Contig t bs → (a, b) ∈ bs → (a', b') ∈ bs →
    a ≤ x → x < b → a' ≤ x → x < b' → a = a' := by
  intro bs
  induction bs with
  | nil => intro t a b a' b' x _ hm; cases hm
  | cons hd rest ih =>
    intro t a b a' b' x hc hm1 hm2 h1 h2 h3 h4
    obtain ⟨s, e⟩ := hd
    obtain ⟨hst, hse, hee, hrest⟩ := hc
    rcases List.mem_cons.mp hm1 with hm1 | hm1 <;>
      rcases List.mem_cons.mp hm2 with hm2 | hm2
    · rw [Prod.mk.injEq] at hm1 hm2
      omega
    · injection hm1 with ha hb
      obtain ⟨hta, _, _⟩ := contig_mem_bounds rest e a' b' hrest hm2
      omega
    · injection hm2 with ha hb
      obtain ⟨hta, _, _⟩ := contig_mem_bounds rest e a b hrest hm1
      omega
    · exact ih e a b a' b' x hrest hm1 hm2 h1 h2 h3 h4

/-- `find?` for a block starting at `q` skips blocks known to start
earlier. -/
theorem find_start_skip : ∀ (pre suf : List (Nat × Nat)) (q : Nat),
    (∀ b ∈ pre, b.1 ≠ q) →
    (pre ++ suf).find? (fun b => b.1 = q) = suf.find? (fun b => b.1 = q) := by
  intro pre
  induction pre with
  | nil => intro suf q _; rfl
  | cons p rest ih =>
    intro suf q hpre
    have hp : p.1 ≠ q := hpre p (List.mem_cons_self p rest)
    simp only [List.cons_append, List.find?]
    rw [decide_eq_false hp]
    exact ih suf q (fun b hb => hpre b (List.mem_cons_of_mem p hb))

/-- The forward walk from a recorded block boundary at or before the target
block reaches the target block's start: each step reads the size of the
block starting at the cursor and, with contiguous blocks, hops to the next
recorded start. -/
theorem forwardWalk_reaches : ∀ (suf pre : List (Nat × Nat)) (q : Nat),
    (∀ b ∈ pre, b.1 < q) →
    Contig q suf →
    ∀ s e addr, (s, e) ∈ suf → s ≤ addr → addr < e →
    ∀ fuel, suf.length ≤ fuel →
    forwardWalk (pre ++ suf) fuel q addr = some s := by
  intro suf
  induction suf with
  | nil => intro pre q _ _ s e addr hmem; cases hmem
  | cons hd rest ih =>
    intro pre q hpre hc s e addr hmem hs haddr fuel hfuel
    obtain ⟨s1, e1⟩ := hd
    obtain ⟨hq, hqe, he1, hrest⟩ := hc
    subst hq
    match fuel, hfuel with
    | f + 1, hfuel =>
      rw [forwardWalk]
      rw [find_start_skip pre ((s1, e1) :: rest) s1
        (fun b hb => Nat.ne_of_lt (hpre b hb))]
      have hfind : List.find? (fun b => decide (b.1 = s1)) ((s1, e1) :: rest)
          = some (s1, e1) := by simp
      rw [hfind]
      show (if addr < e1 then some s1
        else forwardWalk (pre ++ (s1, e1) :: rest) f e1 addr) = some s
      by_cases hae : addr < e1
      · rw [if_pos hae]
        rcases List.mem_cons.mp hmem with hmem | hmem
        · injection hmem with h1 _
          rw [h1]
        · obtain ⟨hta, _, _⟩ := contig_mem_bounds rest e1 s e hrest hmem
          omega
      · rw [if_neg hae]
        have hmem' : (s, e) ∈ rest := by
          rcases List.mem_cons.mp hmem with hmem | hmem
          · injection hmem with h1 h2
            omega
          · exact hmem
        have hassoc : pre ++ (s1, e1) :: rest = (pre ++ [(s1, e1)]) ++ rest := by
          simp
        rw [hassoc]
        refine ih (pre ++ [(s1, e1)]) e1 ?_ hrest s e addr hmem' hs haddr f
          (by simpa using Nat.succ_le_succ_iff.mp hfuel)
        intro b hb
        rcases List.mem_append.mp hb with hb | hb
        · exact lt_trans (hpre b hb) hqe
        · rcases List.mem_singleton.mp hb with rfl
          exact hqe

/-- C1 counterexample: the claim quantifies over all monotonically
increasing, non-overlapping `[start, end)` sequences.  The valid sequence
`[0,100), [110,200)` leaves the gap `[100,110)` unparseable: looking up
address 115 decodes card 1 back to block start 0, and the forward heap walk
then steps to word 100, which is not the start of any recorded block
(reading a garbage object header in the source), so `block_start` does not
return 110. -/
theorem bot_round_trip_counterexample :
    ValidFrom 0 [(0, 100), (110, 200)] ∧
    (110, 200) ∈ [(0, 100), (110, 200)] ∧ 110 ≤ (115 : Nat) ∧ (115 : Nat) < 200 ∧
    block_start [(0, 100), (110, 200)]
      (runAllocs initBot [(0, 100), (110, 200)]).offsets 115 = none := by
  exact ⟨by decide, by decide, by decide, by decide, by decide⟩

/-- C1 amended: for every sequence of `alloc_block(start, end)` calls with
contiguous ranges inside one region starting at `bottom` (each range begins
exactly where the previous ended — how a region allocates: bump pointer from
`bottom` with filler objects for gaps), a subsequent `block_start(addr)` for
every `addr` inside any recorded range returns exactly that range's start
address. -/
theorem bot_block_start_round_trip (bs : List (Nat × Nat)) (hc : Contig 0 bs)
    (s e addr : Nat) (hmem : (s, e) ∈ bs) (hsa : s ≤ addr) (hae : addr < e) :
    block_start bs (runAllocs initBot bs).offsets addr = some s := by
  have hv := contig_valid bs 0 hc
  have hrun := goodState_run bs initBot 0 [] goodState_init hv
  rw [List.nil_append] at hrun
  obtain ⟨_, hse, hetop⟩ := contig_mem_bounds bs 0 s e hc hmem
  have haddrtop : addr < lastTop 0 bs := by omega
  obtain ⟨q, eq, hqmem, hqle, hdec⟩ :
      ∃ q eq, (q, eq) ∈ bs ∧ q ≤ s ∧
        decodeCard (runAllocs initBot bs).offsets (index_for addr + 1)
          (index_for addr) = some q := by
    rcases Nat.eq_zero_or_pos (index_for addr) with hcz | hcz
    · match bs, hc, hmem with
      | (s1, e1) :: rest, hc, hmem =>
        obtain ⟨hs1, _, _, _⟩ := hc
        refine ⟨s1, e1, List.mem_cons_self _ _, by omega, ?_⟩
        rw [hcz]
        rw [decodeCard]
        rw [hrun.card0]
        rw [if_pos (by simp [N_words])]
        simp [address_for_index, hs1]
    · have hc2 : index_for addr < stampLimit (lastTop 0 bs) := by
        simp only [index_for, stampLimit, N_words]
        omega
      obtain ⟨s0, e0, hm0, hs0, he0, hdec0⟩ :=
        hrun.decode_ok (index_for addr) hcz hc2
      have hx : N_words * index_for addr ≤ addr := by
        simp only [index_for, N_words]
        omega
      refine ⟨s0, e0, hm0, ?_, hdec0⟩
      by_cases hsc : s ≤ N_words * index_for addr
      · have := contig_no_overlap bs 0 s0 e0 s e (N_words * index_for addr)
          hc hm0 hmem hs0 he0 hsc (by omega)
        omega
      · omega
  simp only [block_start, block_at_or_preceding, hdec]
  obtain ⟨pre, suf, hsplit⟩ := List.append_of_mem hqmem
  obtain ⟨hcpre, hcsuf⟩ := contig_append pre ((q, eq) :: suf) 0 (hsplit ▸ hc)
  have hqlast : q = lastTop 0 pre := hcsuf.1
  have hpre : ∀ b ∈ pre, b.1 < q := by
    intro b hb
    obtain ⟨_, hab, hbl⟩ := contig_mem_bounds pre 0 b.1 b.2 hcpre (by simpa using hb)
    omega
  have hmem' : (s, e) ∈ (q, eq) :: suf := by
    rcases List.mem_append.mp (hsplit ▸ hmem) with hin | hin
    · obtain ⟨_, _, hbl⟩ := contig_mem_bounds pre 0 s e hcpre hin
      omega
    · exact hin
  rw [← hqlast] at hcsuf
  rw [hsplit]
  exact forwardWalk_reaches ((q, eq) :: suf) pre q hpre hcsuf s e addr
    hmem' hsa hae ((pre ++ (q, eq) :: suf).length + 1)
    (by simp only [List.length_append, List.length_cons]; omega)

/-- Witness for `bot_block_start_round_trip`: two contiguous blocks
`[0,100), [100,200)`; looking up address 150 returns 100. -/
theorem bot_block_start_round_trip_witness :
    Contig 0 [(0, 100), (100, 200)] ∧
    block_start [(0, 100), (100, 200)]
      (runAllocs initBot [(0, 100), (100, 200)]).offsets 150 = some 100 := by
  refine ⟨by decide, ?_⟩
  exact bot_block_start_round_trip [(0, 100), (100, 200)] (by decide) 100 200 150
    (by decide) (by decide) (by decide)

end BOT

end Semeru
